import Mathlib

/-!
Shallow embedding of the row-reconstruction core of `convert_statement.py`.

Coordinates (`x0`, `top`) are modelled as rationals (the source uses CPython
floats; every constant and comparison in the source is exact at this scale).
Strings are Lean `String`s restricted to the ASCII behaviour of the Python
string/regex primitives the source uses.
-/

namespace ConvertStatement

/-- ASCII characters matched by the Python regex class `\s` (and stripped by
`str.strip()`): space, tab, newline, carriage return, vertical tab, form feed. -/
def isPySpace (c : Char) : Bool :=
  c = ' ' || c = '\t' || c = '\n' || c = '\r' || c = '\x0b' || c = '\x0c'

/-- The character map performed by `text.replace("~", " ")`. -/
def tildeChar (c : Char) : Char := if c = '~' then ' ' else c

/-- Python `str.lstrip()` on a character list. -/
def pyLStrip (l : List Char) : List Char := l.dropWhile isPySpace

/-- Python `str.rstrip()` on a character list. -/
def pyRStrip (l : List Char) : List Char := (l.reverse.dropWhile isPySpace).reverse

/-- Python `str.strip()` on a character list. -/
def pyStrip (l : List Char) : List Char := pyRStrip (pyLStrip l)

/-- Python `str.strip()` on strings. -/
def pyStripS (s : String) : String := String.mk (pyStrip s.data)

/-- Auxiliary scan for `re.sub(r"\s+", " ", text)`: the flag records whether the
previous character belonged to a whitespace run already emitted as one space. -/
def collapseAux : Bool → List Char → List Char
  | _, [] => []
  | prevWs, c :: cs =>
    if isPySpace c then
      if prevWs then collapseAux true cs
      else ' ' :: collapseAux true cs
    else c :: collapseAux false cs

/-- The substitution `re.sub(r"\s+", " ", text)`: every maximal whitespace run
becomes a single space. -/
def collapseWs (l : List Char) : List Char := collapseAux false l

/-- Embedding of `_normalise_whitespace`: replace tildes by spaces, collapse
whitespace runs to single spaces, strip both ends. -/
def normalise_whitespace (s : String) : String :=
  String.mk (pyStrip (collapseWs (s.data.map tildeChar)))

/-- Full match of `DATE_RE = re.compile(r"\d{2}/\d{2}/\d{2}")` (ASCII digits). -/
def isDateText (s : String) : Bool :=
  match s.data with
  | [a, b, c, d, e, f, g, h] =>
    a.isDigit && b.isDigit && c = '/' && d.isDigit && e.isDigit && f = '/' &&
      g.isDigit && h.isDigit
  | _ => false

/-- Full match of `TIME_RE = re.compile(r"\d{2}:\d{2}")` (ASCII digits). -/
def isTimeText (s : String) : Bool :=
  match s.data with
  | [a, b, c, d, e] => a.isDigit && b.isDigit && c = ':' && d.isDigit && e.isDigit
  | _ => false

/-- Value of a list of ASCII digit characters read in base 10. -/
def digitsToNat (l : List Char) : Nat :=
  l.foldl (fun n c => 10 * n + (c.toNat - '0'.toNat)) 0

/-- Exponent part of the `Decimal` grammar: `('e'|'E') [sign] digits`, nothing after. -/
def parseExponent (cs : List Char) : Option Int :=
  match cs with
  | [] => none
  | e :: rest =>
    if e = 'e' ∨ e = 'E' then
      let (sgn, digs) :=
        match rest with
        | '+' :: r => ((1 : Int), r)
        | '-' :: r => ((-1 : Int), r)
        | r => ((1 : Int), r)
      if digs ≠ [] ∧ digs.all Char.isDigit then some (sgn * (digitsToNat digs : Int))
      else none
    else none

/-- Unsigned part of the `Decimal` numeric grammar:
`digits [. digits] [exp]` or `. digits [exp]`, with at least one digit.
Non-finite forms (`NaN`, `Infinity`) have no rational value and are outside
this model. -/
def parseUnsignedDec (cs : List Char) : Option ℚ :=
  let intd := cs.takeWhile Char.isDigit
  let rest := cs.dropWhile Char.isDigit
  match rest with
  | [] => if intd = [] then none else some (digitsToNat intd : ℚ)
  | '.' :: rest2 =>
    let fracd := rest2.takeWhile Char.isDigit
    let rest3 := rest2.dropWhile Char.isDigit
    if intd = [] ∧ fracd = [] then none
    else
      let base : ℚ := (digitsToNat (intd ++ fracd) : ℚ) / (10 : ℚ) ^ fracd.length
      match rest3 with
      | [] => some base
      | _ =>
        match parseExponent rest3 with
        | some e => some (base * (10 : ℚ) ^ e)
        | none => none
  | _ =>
    match parseExponent rest with
    | some e =>
      if intd = [] then none else some ((digitsToNat intd : ℚ) * (10 : ℚ) ^ e)
    | none => none

/-- Signed `Decimal(value)` numeric string parse. -/
def parseDecimal (cs : List Char) : Option ℚ :=
  match cs with
  | '+' :: rest => parseUnsignedDec rest
  | '-' :: rest => (parseUnsignedDec rest).map (fun q => -q)
  | _ => parseUnsignedDec cs

/-- Embedding of `_parse_amount`: strip, empty means absent, drop commas, parse
as a decimal number; any parse failure yields `none` (never an error). The
CPython version converts the exact `Decimal` to a double; the model keeps the
exact rational value. -/
def parse_amount (value : String) : Option ℚ :=
  let v := pyStripS value
  if v = "" then none
  else parseDecimal (v.data.filter (fun c => c ≠ ','))

/-- A positioned word as produced by the PDF backend: `text`, `x0`, `top`. -/
structure Fragment where
  text : String
  x0 : ℚ
  top : ℚ
deriving Repr, DecidableEq

/-- Column boundaries from the source: `WITHDRAWAL_RANGE = (340, 420)`. -/
def WITHDRAWAL_RANGE : ℚ × ℚ := (340, 420)

/-- Column boundaries from the source: `DEPOSIT_RANGE = (420, 470)`. -/
def DEPOSIT_RANGE : ℚ × ℚ := (420, 470)

/-- Column boundaries from the source: `BALANCE_RANGE = (470, 540)`. -/
def BALANCE_RANGE : ℚ × ℚ := (470, 540)

/-- Column boundary from the source: `BRANCH_MIN_X = 530`. -/
def BRANCH_MIN_X : ℚ := 530

/-- A record row before the final amount-parsing pass: the three amount fields
still hold raw text, exactly as in the `records` dict list of the source. -/
structure Record where
  Date : String
  Time : String
  Description : String
  Withdrawal : String
  Deposit : String
  Balance : String
  Branch : String
  Page : Nat
deriving Repr, DecidableEq

/-- A record row after the amount-parsing pass over the data frame columns. -/
structure ParsedRecord where
  Date : String
  Time : String
  Description : String
  Withdrawal : Option ℚ
  Deposit : Option ℚ
  Balance : Option ℚ
  Branch : String
  Page : Nat
deriving Repr, DecidableEq

/-- Strict lexicographic order on the Python sort key `(top, x0)`. -/
def fragLt (a b : Fragment) : Bool :=
  a.top < b.top || (a.top = b.top && a.x0 < b.x0)

/-- Stable insertion for the `(top, x0)` sort. -/
def insertFrag (x : Fragment) : List Fragment → List Fragment
  | [] => [x]
  | y :: ys => if fragLt y x then y :: insertFrag x ys else x :: y :: ys

/-- The stable sort `words.sort(key=lambda w: (w["top"], w["x0"]))`. -/
def sortFrags : List Fragment → List Fragment
  | [] => []
  | x :: xs => insertFrag x (sortFrags xs)

/-- Strict order on the per-line sort key `x0`. -/
def xLt (a b : Fragment) : Bool := a.x0 < b.x0

/-- Stable insertion for the `x0` sort. -/
def insertX (x : Fragment) : List Fragment → List Fragment
  | [] => [x]
  | y :: ys => if xLt y x then y :: insertX x ys else x :: y :: ys

/-- The stable sort `sorted(line["words"], key=lambda w: w["x0"])`. -/
def sortByX0 : List Fragment → List Fragment
  | [] => []
  | x :: xs => insertX x (sortByX0 xs)

/-- A visual text line: the reference vertical offset fixed at creation, plus
the member fragments in arrival order. -/
structure Line where
  top : ℚ
  words : List Fragment
deriving Repr, DecidableEq

/-- One iteration of the line-grouping loop: a word opens a new line when there
is no line yet or its `top` differs from the last line's reference `top` by
more than 1.5; otherwise it is appended to the last line. -/
def groupStep (lines : List Line) (w : Fragment) : List Line :=
  match lines.getLast? with
  | none => lines ++ [⟨w.top, [w]⟩]
  | some last =>
    if |w.top - last.top| > 1.5 then lines ++ [⟨w.top, [w]⟩]
    else lines.dropLast ++ [⟨last.top, last.words ++ [w]⟩]

/-- The line-grouping loop of the source, over the `(top, x0)`-sorted words. -/
def groupLines (ws : List Fragment) : List Line := ws.foldl groupStep []

/-- Reference single-link grouping, written from the spec: a line is the
maximal run of fragments whose vertical offset stays within 1.5 of the line's
first fragment (the reference is never updated); the first fragment outside the
tolerance starts the next line. -/
def groupLinesSpec : List Fragment → List Line
  | [] => []
  | w :: ws =>
    ⟨w.top, w :: ws.takeWhile (fun v => |v.top - w.top| ≤ 1.5)⟩ ::
      groupLinesSpec (ws.dropWhile (fun v => |v.top - w.top| ≤ 1.5))
termination_by l => l.length
decreasing_by
  simp only [List.length_cons]
  exact Nat.lt_succ_of_le (List.dropWhile_sublist _).length_le

/-- Join with single spaces, as Python `" ".join(parts)`. -/
def joinSpace (parts : List String) : String := String.intercalate " " parts

/-- One iteration of the classification loop over the fragments after the Date
on an opening line (source lines 76-88): the accumulator carries the open
record and the pending description parts. -/
def dateStep (acc : Record × List String) (w : Fragment) : Record × List String :=
  if WITHDRAWAL_RANGE.1 ≤ w.x0 ∧ w.x0 ≤ WITHDRAWAL_RANGE.2 then
    ({acc.1 with Withdrawal := w.text}, acc.2)
  else if DEPOSIT_RANGE.1 < w.x0 ∧ w.x0 ≤ DEPOSIT_RANGE.2 then
    ({acc.1 with Deposit := w.text}, acc.2)
  else if BALANCE_RANGE.1 < w.x0 ∧ w.x0 ≤ BALANCE_RANGE.2 then
    ({acc.1 with Balance := w.text}, acc.2)
  else if w.x0 > BRANCH_MIN_X then
    ({acc.1 with Branch := pyStripS (acc.1.Branch ++ " " ++ w.text)}, acc.2)
  else
    (acc.1, acc.2 ++ [w.text])

/-- Opening a Transaction on a Date-led line (source lines 62-89): a fresh
record with the date, then the classification loop over the remaining
fragments, then the joined and normalised description. -/
def dateLine (page : Nat) (first : String) (rest : List Fragment) : Record :=
  let init : Record := ⟨first, "", "", "", "", "", "", page⟩
  let acc := rest.foldl dateStep (init, [])
  {acc.1 with Description := normalise_whitespace (joinSpace acc.2)}

/-- One iteration of the classification loop on a continuation line (source
lines 121-133): amount bands only fire when the field is still empty. -/
def contStep (acc : Record × List String) (w : Fragment) : Record × List String :=
  if (WITHDRAWAL_RANGE.1 ≤ w.x0 ∧ w.x0 ≤ WITHDRAWAL_RANGE.2) ∧ acc.1.Withdrawal = "" then
    ({acc.1 with Withdrawal := w.text}, acc.2)
  else if (DEPOSIT_RANGE.1 < w.x0 ∧ w.x0 ≤ DEPOSIT_RANGE.2) ∧ acc.1.Deposit = "" then
    ({acc.1 with Deposit := w.text}, acc.2)
  else if (BALANCE_RANGE.1 < w.x0 ∧ w.x0 ≤ BALANCE_RANGE.2) ∧ acc.1.Balance = "" then
    ({acc.1 with Balance := w.text}, acc.2)
  else if w.x0 > BRANCH_MIN_X then
    ({acc.1 with Branch := pyStripS (acc.1.Branch ++ " " ++ w.text)}, acc.2)
  else
    (acc.1, acc.2 ++ [w.text])

/-- The merged description text of a continuation line (source lines 135-139):
the existing description, a separating space when it is non-empty, the joined
extra parts, all normalised. -/
def mergedDesc (d : String) (parts : List String) : String :=
  normalise_whitespace ((if d ≠ "" then d ++ " " else d) ++ joinSpace parts)

/-- Appending the collected continuation description text (source lines
134-139): when parts were collected, join them after the existing description
(separated by one space when it is non-empty) and normalise. -/
def mergeDescription (acc : Record × List String) : Record :=
  if acc.2.isEmpty then acc.1
  else {acc.1 with Description := mergedDesc acc.1.Description acc.2}

/-- Processing a continuation line (source lines 115-139) on the open record,
given the line's fragments already sorted by `x0`: a leading `HH:MM` fragment
sets the Time and is excluded from classification; collected description text
is appended after the existing description and normalised. -/
def contLine (r : Record) (sw : List Fragment) : Record :=
  match sw with
  | [] => r
  | w :: rest =>
    if isTimeText w.text then
      mergeDescription (rest.foldl contStep ({r with Time := w.text}, []))
    else
      mergeDescription ((w :: rest).foldl contStep (r, []))

/-- Building the Summary record of a `Total` line (source lines 94-113) from
the line's fragment texts in `x0` order. -/
def summaryRecord (page : Nat) (texts : List String) : Record :=
  let base : Record := ⟨"", "", "", "", "", "", "", page⟩
  if texts.length ≥ 4 ∧ (texts.getD 1 "" = "Withdrawal" ∨ texts.getD 1 "" = "Deposit") then
    let base :=
      {base with Description :=
        "Total " ++ texts.getD 1 "" ++ " (count: " ++ texts.getD 2 "" ++ ")"}
    if texts.getD 1 "" = "Withdrawal" then {base with Withdrawal := texts.getD 3 ""}
    else {base with Deposit := texts.getD 3 ""}
  else
    {base with Description := normalise_whitespace (joinSpace texts)}

/-- Dispatch on one Line (source lines 55-139): sort its words by `x0`, then
branch on the first text (Date opening / Total summary / continuation /
silently dropped). Returns the new open record and the records emitted by this
line, in append order. -/
def handleLine (page : Nat) (current : Option Record) (lw : List Fragment) :
    Option Record × List Record :=
  match sortByX0 lw with
  | [] => (current, [])
  | w :: rest =>
    if isDateText w.text then
      (some (dateLine page w.text rest), current.toList)
    else if w.text = "Total" then
      (none, current.toList ++ [summaryRecord page ((w :: rest).map Fragment.text)])
    else
      match current with
      | some r => (some (contLine r (w :: rest)), [])
      | none => (none, [])

/-- The per-page line scan (source lines 54-141): fold the lines through
`handleLine`, emitting the still-open record at end of page. -/
def processLines (page : Nat) (current : Option Record) : List Line → List Record
  | [] => current.toList
  | l :: ls =>
    let s := handleLine page current l.words
    s.2 ++ processLines page s.1 ls

/-- The whole per-page reconstruction: sort by `(top, x0)`, group into lines,
scan. The crop and word extraction of the PDF backend are the external
collaborator supplying the fragments. -/
def extractPage (page : Nat) (frags : List Fragment) : List Record :=
  processLines page none (groupLines (sortFrags frags))

/-- The final amount-parsing pass over the three amount columns (source lines
154-159). -/
def parseRecord (r : Record) : ParsedRecord :=
  ⟨r.Date, r.Time, r.Description, parse_amount r.Withdrawal, parse_amount r.Deposit,
    parse_amount r.Balance, r.Branch, r.Page⟩

/-- Embedding of `extract_statement_records`, taking the per-page fragment
lists the PDF backend would supply, pages numbered from 1. -/
def extract_statement_records (pages : List (List Fragment)) : List ParsedRecord :=
  (((pages.enumFrom 1).map (fun p => extractPage p.1 p.2)).flatten).map parseRecord

/-- A character that separates description words in the spec's reading of the
normaliser: whitespace or a tilde. -/
def isSep (c : Char) : Bool := isPySpace c || c = '~'

/-- The maximal runs of non-separator characters of a string, in order. -/
def toWords : List Char → List (List Char)
  | [] => []
  | c :: cs =>
    if isSep c then toWords cs
    else
      (c :: cs.takeWhile (fun d => !isSep d)) :: toWords (cs.dropWhile (fun d => !isSep d))
termination_by l => l.length
decreasing_by
  all_goals simp only [List.length_cons]
  · exact Nat.lt_succ_of_le (Nat.le_refl _)
  · exact Nat.lt_succ_of_le (List.dropWhile_sublist _).length_le

/-- Same splitting, separating on whitespace only (used after the tilde map). -/
def toWordsWs : List Char → List (List Char)
  | [] => []
  | c :: cs =>
    if isPySpace c then toWordsWs cs
    else
      (c :: cs.takeWhile (fun d => !isPySpace d)) ::
        toWordsWs (cs.dropWhile (fun d => !isPySpace d))
termination_by l => l.length
decreasing_by
  all_goals simp only [List.length_cons]
  · exact Nat.lt_succ_of_le (Nat.le_refl _)
  · exact Nat.lt_succ_of_le (List.dropWhile_sublist _).length_le

/-- Normalisation as the spec words it: every maximal run of tildes and (or)
whitespace becomes a single separating space, and leading and trailing runs
are removed — i.e. the non-separator words joined by single spaces. -/
def specNormalise (s : String) : String :=
  String.mk (List.intercalate [' '] (toWords s.data))

/-- Membership in the Withdrawal band `[340, 420]`. -/
def inWithdrawalBand (w : Fragment) : Bool :=
  decide (WITHDRAWAL_RANGE.1 ≤ w.x0 ∧ w.x0 ≤ WITHDRAWAL_RANGE.2)

/-- Membership in the Deposit band `(420, 470]`. -/
def inDepositBand (w : Fragment) : Bool :=
  decide (DEPOSIT_RANGE.1 < w.x0 ∧ w.x0 ≤ DEPOSIT_RANGE.2)

/-- Membership in the Balance band `(470, 540]`. -/
def inBalanceBand (w : Fragment) : Bool :=
  decide (BALANCE_RANGE.1 < w.x0 ∧ w.x0 ≤ BALANCE_RANGE.2)

/-- A record is a Transaction (rather than a Summary) when it carries a Date. -/
def isTransaction (r : Record) : Bool := r.Date != ""

/-- A line is Date-led when its leftmost fragment matches the date pattern. -/
def dateLed (lw : List Fragment) : Bool :=
  match sortByX0 lw with
  | [] => false
  | w :: _ => isDateText w.text

/-- Input page of the end-to-end scenario: an opening line with the date
fragment, description fragments near `x0 = 100`, an amount at `x0 = 380`
inside the Withdrawal band; a continuation line at `x0 = 100`; then a new
Date-led line. -/
def scenarioFrags : List Fragment :=
  [⟨"01/02/23", 40, 0⟩, ⟨"Grocery", 100, 0⟩, ⟨"Store", 130, 0⟩, ⟨"150.00", 380, 0⟩,
   ⟨"Ref:", 100, 10⟩, ⟨"999", 130, 10⟩, ⟨"02/03/23", 40, 20⟩]

/-- An open Transaction used as the already-open record of the Total-line
scenario. -/
def totalOpenRec : Record := ⟨"01/01/23", "", "Opening purchase", "", "", "", "", 1⟩

/-- The fragments of the `Total Withdrawal 12 4500.00` line. -/
def totalLineWords : List Fragment :=
  [⟨"Total", 40, 0⟩, ⟨"Withdrawal", 150, 0⟩, ⟨"12", 300, 0⟩, ⟨"4500.00", 380, 0⟩]

/-- A record with all three amount fields already populated, used to witness
the first-value-wins invariant. -/
def populatedRec : Record :=
  ⟨"01/02/23", "", "Groceries", "150.00", "25.00", "500.00", "", 1⟩

/-- A continuation line that attempts to overwrite all three amount bands. -/
def overwriteLine : List Fragment :=
  [⟨"999.99", 380, 10⟩, ⟨"888.88", 450, 10⟩, ⟨"777.77", 500, 10⟩]

/-- A record and branch-band fragment used to witness the Branch
classification of fragments beyond the Balance band. -/
def branchRec : Record := ⟨"01/02/23", "", "", "", "", "", "Main", 1⟩

/-- A fragment strictly right of the Balance band. -/
def branchFrag : Fragment := ⟨"HQ", 600, 0⟩

/-- A record whose Time is already set, to witness last-value-wins for Time. -/
def timedRec : Record := ⟨"01/02/23", "08:00", "", "", "", "", "", 1⟩

section ConcreteEvaluation

attribute [local semireducible] Rat.add Rat.sub Rat.mul Rat.inv Rat.ofScientific

/-- C1: on the scenario page, the reconstructor emits a Transaction whose
Description is "Grocery Store Ref: 999", whose Withdrawal parses to 150.00,
and whose Balance is absent (followed by the Transaction the closing Date
line opens). -/
theorem c1_end_to_end_scenario :
    extract_statement_records [scenarioFrags] =
      [⟨"01/02/23", "", "Grocery Store Ref: 999", some 150, none, none, "", 1⟩,
       ⟨"02/03/23", "", "", none, none, none, "", 1⟩] := by
  decide

/-- C5: amount parsing strips, nulls the empty string, drops commas, parses
the rest as a decimal number and maps every unparsable string to `none`:
"1,234.56" parses to 1234.56, "" and "abc" to absent, "-50.00" to -50. -/
theorem c5_amount_parsing :
    parse_amount "1,234.56" = some (1234.56 : ℚ) ∧ parse_amount "" = none ∧
      parse_amount "abc" = none ∧ parse_amount "-50.00" = some (-50.0 : ℚ) := by
  refine ⟨by decide, by decide, by decide, by decide⟩

/-- C6: a `Total Withdrawal 12 4500.00` line closes and emits the open record
first, then immediately appends a Summary with empty Date, Description
"Total Withdrawal (count: 12)", Withdrawal 4500.00 and Deposit absent. -/
theorem c6_total_withdrawal_line :
    (processLines 1 (some totalOpenRec) [⟨0, totalLineWords⟩]).map parseRecord =
      [parseRecord totalOpenRec,
       ⟨"", "", "Total Withdrawal (count: 12)", some 4500, none, none, "", 1⟩] := by
  decide

/-- C3 counterexample: a fragment at `x0 = 535 > 530` on an opening Date line
is not appended to Branch; it lands in the Balance field, because the Balance
band `(470, 540]` is tested before the Branch threshold. -/
theorem c3_counterexample :
    BRANCH_MIN_X < (535 : ℚ) ∧
      (dateLine 1 "01/02/23" [⟨"HeadOffice", 535, 0⟩]).Balance = "HeadOffice" ∧
      (dateLine 1 "01/02/23" [⟨"HeadOffice", 535, 0⟩]).Branch = "" := by
  refine ⟨by decide, by decide, by decide⟩

end ConcreteEvaluation

/-- C3 (amended): a fragment strictly right of the Balance band, `x0 > 540`,
is classified as Branch on opening and continuation lines alike: it is
space-joined onto Branch and no other field or description part changes. -/
theorem c3_branch_beyond_balance_band (r : Record) (parts : List String) (w : Fragment)
    (h : (540 : ℚ) < w.x0) :
    dateStep (r, parts) w = ({r with Branch := pyStripS (r.Branch ++ " " ++ w.text)}, parts) ∧
      contStep (r, parts) w = ({r with Branch := pyStripS (r.Branch ++ " " ++ w.text)}, parts) := by
  have h420 : ¬(w.x0 ≤ (420 : ℚ)) := not_le.mpr (lt_trans (by norm_num) h)
  have h470 : ¬(w.x0 ≤ (470 : ℚ)) := not_le.mpr (lt_trans (by norm_num) h)
  have h540 : ¬(w.x0 ≤ (540 : ℚ)) := not_le.mpr h
  have hBr : BRANCH_MIN_X < w.x0 := lt_trans (by norm_num [BRANCH_MIN_X]) h
  constructor
  · simp only [dateStep]
    rw [if_neg (fun hc => h420 hc.2), if_neg (fun hc => h470 hc.2),
      if_neg (fun hc => h540 hc.2), if_pos hBr]
  · simp only [contStep]
    rw [if_neg (fun hc => h420 hc.1.2), if_neg (fun hc => h470 hc.1.2),
      if_neg (fun hc => h540 hc.1.2), if_pos hBr]

/-- Witness for the amended C3 at a concrete record and a fragment at
`x0 = 600`. -/
theorem c3_branch_beyond_balance_band_witness :
    dateStep (branchRec, []) branchFrag =
        ({branchRec with Branch := pyStripS (branchRec.Branch ++ " " ++ branchFrag.text)}, []) ∧
      contStep (branchRec, []) branchFrag =
        ({branchRec with Branch := pyStripS (branchRec.Branch ++ " " ++ branchFrag.text)}, []) :=
  c3_branch_beyond_balance_band branchRec [] branchFrag (by norm_num [branchFrag])

theorem contStep_fst_Date (acc : Record × List String) (w : Fragment) :
    (contStep acc w).1.Date = acc.1.Date := by
  simp only [contStep]
  repeat' split
  all_goals rfl

theorem contStep_fst_Time (acc : Record × List String) (w : Fragment) :
    (contStep acc w).1.Time = acc.1.Time := by
  simp only [contStep]
  repeat' split
  all_goals rfl

theorem contFold_Date (ws : List Fragment) :
    ∀ acc : Record × List String, ((ws.foldl contStep acc).1).Date = acc.1.Date := by
  induction ws with
  | nil => intro acc; rfl
  | cons w ws ih => intro acc; rw [List.foldl_cons, ih, contStep_fst_Date]

theorem contFold_Time (ws : List Fragment) :
    ∀ acc : Record × List String, ((ws.foldl contStep acc).1).Time = acc.1.Time := by
  induction ws with
  | nil => intro acc; rfl
  | cons w ws ih => intro acc; rw [List.foldl_cons, ih, contStep_fst_Time]

theorem mergeDescription_Date (acc : Record × List String) :
    (mergeDescription acc).Date = acc.1.Date := by
  simp only [mergeDescription]
  split
  all_goals rfl

theorem mergeDescription_Time (acc : Record × List String) :
    (mergeDescription acc).Time = acc.1.Time := by
  simp only [mergeDescription]
  split
  all_goals rfl

theorem contLine_Date (r : Record) (sw : List Fragment) :
    (contLine r sw).Date = r.Date := by
  cases sw with
  | nil => rfl
  | cons w rest =>
    simp only [contLine]
    split
    · rw [mergeDescription_Date, contFold_Date]
    · rw [mergeDescription_Date, contFold_Date]

theorem contStep_fst_Withdrawal (acc : Record × List String) (w : Fragment)
    (h : acc.1.Withdrawal ≠ "") : (contStep acc w).1.Withdrawal = acc.1.Withdrawal := by
  simp only [contStep]
  rw [if_neg (fun hc => h hc.2)]
  repeat' split
  all_goals rfl

theorem contStep_fst_Deposit (acc : Record × List String) (w : Fragment)
    (h : acc.1.Deposit ≠ "") : (contStep acc w).1.Deposit = acc.1.Deposit := by
  simp only [contStep]
  split
  · rfl
  · rw [if_neg (fun hc => h hc.2)]
    repeat' split
    all_goals rfl

theorem contStep_fst_Balance (acc : Record × List String) (w : Fragment)
    (h : acc.1.Balance ≠ "") : (contStep acc w).1.Balance = acc.1.Balance := by
  simp only [contStep]
  split
  · rfl
  · split
    · rfl
    · rw [if_neg (fun hc => h hc.2)]
      repeat' split
      all_goals rfl

theorem contFold_Withdrawal (ws : List Fragment) :
    ∀ acc : Record × List String, acc.1.Withdrawal ≠ "" →
      ((ws.foldl contStep acc).1).Withdrawal = acc.1.Withdrawal := by
  induction ws with
  | nil => intro acc h; rfl
  | cons w ws ih =>
    intro acc h
    have hs := contStep_fst_Withdrawal acc w h
    rw [List.foldl_cons, ih _ (by rw [hs]; exact h), hs]

theorem contFold_Deposit (ws : List Fragment) :
    ∀ acc : Record × List String, acc.1.Deposit ≠ "" →
      ((ws.foldl contStep acc).1).Deposit = acc.1.Deposit := by
  induction ws with
  | nil => intro acc h; rfl
  | cons w ws ih =>
    intro acc h
    have hs := contStep_fst_Deposit acc w h
    rw [List.foldl_cons, ih _ (by rw [hs]; exact h), hs]

theorem contFold_Balance (ws : List Fragment) :
    ∀ acc : Record × List String, acc.1.Balance ≠ "" →
      ((ws.foldl contStep acc).1).Balance = acc.1.Balance := by
  induction ws with
  | nil => intro acc h; rfl
  | cons w ws ih =>
    intro acc h
    have hs := contStep_fst_Balance acc w h
    rw [List.foldl_cons, ih _ (by rw [hs]; exact h), hs]

theorem mergeDescription_Withdrawal (acc : Record × List String) :
    (mergeDescription acc).Withdrawal = acc.1.Withdrawal := by
  simp only [mergeDescription]
  split
  all_goals rfl

theorem mergeDescription_Deposit (acc : Record × List String) :
    (mergeDescription acc).Deposit = acc.1.Deposit := by
  simp only [mergeDescription]
  split
  all_goals rfl

theorem mergeDescription_Balance (acc : Record × List String) :
    (mergeDescription acc).Balance = acc.1.Balance := by
  simp only [mergeDescription]
  split
  all_goals rfl

theorem contLine_Withdrawal (r : Record) (sw : List Fragment) (h : r.Withdrawal ≠ "") :
    (contLine r sw).Withdrawal = r.Withdrawal := by
  cases sw with
  | nil => rfl
  | cons w rest =>
    simp only [contLine]
    split
    · rw [mergeDescription_Withdrawal, contFold_Withdrawal _ _ h]
    · rw [mergeDescription_Withdrawal, contFold_Withdrawal _ _ h]

theorem contLine_Deposit (r : Record) (sw : List Fragment) (h : r.Deposit ≠ "") :
    (contLine r sw).Deposit = r.Deposit := by
  cases sw with
  | nil => rfl
  | cons w rest =>
    simp only [contLine]
    split
    · rw [mergeDescription_Deposit, contFold_Deposit _ _ h]
    · rw [mergeDescription_Deposit, contFold_Deposit _ _ h]

theorem contLine_Balance (r : Record) (sw : List Fragment) (h : r.Balance ≠ "") :
    (contLine r sw).Balance = r.Balance := by
  cases sw with
  | nil => rfl
  | cons w rest =>
    simp only [contLine]
    split
    · rw [mergeDescription_Balance, contFold_Balance _ _ h]
    · rw [mergeDescription_Balance, contFold_Balance _ _ h]

/-- C2: over any sequence of continuation lines applied to an open record,
each of the three amount fields, once non-empty, keeps its value: the first
value wins for Withdrawal, Deposit and Balance. -/
theorem c2_first_value_wins (lines : List (List Fragment)) (r : Record) :
    (r.Withdrawal ≠ "" → (lines.foldl contLine r).Withdrawal = r.Withdrawal) ∧
      (r.Deposit ≠ "" → (lines.foldl contLine r).Deposit = r.Deposit) ∧
      (r.Balance ≠ "" → (lines.foldl contLine r).Balance = r.Balance) := by
  induction lines generalizing r with
  | nil => exact ⟨fun _ => rfl, fun _ => rfl, fun _ => rfl⟩
  | cons l ls ih =>
    refine ⟨fun h => ?_, fun h => ?_, fun h => ?_⟩
    · have h1 := contLine_Withdrawal r l h
      rw [List.foldl_cons, (ih (contLine r l)).1 (by rw [h1]; exact h), h1]
    · have h1 := contLine_Deposit r l h
      rw [List.foldl_cons, (ih (contLine r l)).2.1 (by rw [h1]; exact h), h1]
    · have h1 := contLine_Balance r l h
      rw [List.foldl_cons, (ih (contLine r l)).2.2 (by rw [h1]; exact h), h1]

/-- Witness for C2: a record with all three amounts populated keeps them
through a continuation line aimed at all three bands. -/
theorem c2_first_value_wins_witness :
    ((([overwriteLine] : List (List Fragment)).foldl contLine populatedRec).Withdrawal
        = "150.00") ∧
      ((([overwriteLine] : List (List Fragment)).foldl contLine populatedRec).Deposit
        = "25.00") ∧
      ((([overwriteLine] : List (List Fragment)).foldl contLine populatedRec).Balance
        = "500.00") := by
  refine ⟨?_, ?_, ?_⟩
  · exact (c2_first_value_wins [overwriteLine] populatedRec).1 (by decide)
  · exact (c2_first_value_wins [overwriteLine] populatedRec).2.1 (by decide)
  · exact (c2_first_value_wins [overwriteLine] populatedRec).2.2 (by decide)

theorem contLine_Time_of_time (r : Record) (w : Fragment) (ws : List Fragment)
    (h : isTimeText w.text = true) : (contLine r (w :: ws)).Time = w.text := by
  simp only [contLine, h, if_pos]
  rw [mergeDescription_Time, contFold_Time]

/-- C10: a continuation line whose first fragment matches the time pattern
sets the open record's Time to it unconditionally, so of two time-led
continuation lines the later one's value stands: last value wins. -/
theorem c10_time_last_wins (r : Record) (w : Fragment) (ws : List Fragment)
    (h : isTimeText w.text = true) :
    (contLine r (w :: ws)).Time = w.text ∧
      ∀ (w' : Fragment) (ws' : List Fragment), isTimeText w'.text = true →
        (contLine (contLine r (w :: ws)) (w' :: ws')).Time = w'.text :=
  ⟨contLine_Time_of_time r w ws h,
   fun w' ws' h' => contLine_Time_of_time (contLine r (w :: ws)) w' ws' h'⟩

/-- Witness for C10: a record whose Time is "08:00" gets "12:34" from a
time-led continuation line, and "13:45" from a second one. -/
theorem c10_time_last_wins_witness :
    (contLine timedRec [⟨"12:34", 100, 10⟩]).Time = "12:34" ∧
      (contLine (contLine timedRec [⟨"12:34", 100, 10⟩]) [⟨"13:45", 100, 20⟩]).Time
        = "13:45" := by
  refine ⟨(c10_time_last_wins timedRec ⟨"12:34", 100, 10⟩ [] (by decide)).1, ?_⟩
  exact (c10_time_last_wins timedRec ⟨"12:34", 100, 10⟩ [] (by decide)).2
    ⟨"13:45", 100, 20⟩ [] (by decide)

theorem dateStep_fst_Withdrawal (acc : Record × List String) (w : Fragment) :
    (dateStep acc w).1.Withdrawal =
      if inWithdrawalBand w then w.text else acc.1.Withdrawal := by
  by_cases hc : WITHDRAWAL_RANGE.1 ≤ w.x0 ∧ w.x0 ≤ WITHDRAWAL_RANGE.2
  · rw [if_pos (by simpa [inWithdrawalBand] using hc)]
    simp only [dateStep]
    rw [if_pos hc]
  · rw [if_neg (by simpa [inWithdrawalBand] using hc)]
    simp only [dateStep]
    rw [if_neg hc]
    repeat' split
    all_goals rfl

theorem dateStep_fst_Deposit (acc : Record × List String) (w : Fragment) :
    (dateStep acc w).1.Deposit =
      if inDepositBand w then w.text else acc.1.Deposit := by
  by_cases hc : DEPOSIT_RANGE.1 < w.x0 ∧ w.x0 ≤ DEPOSIT_RANGE.2
  · rw [if_pos (by simpa [inDepositBand] using hc)]
    have hW : ¬(WITHDRAWAL_RANGE.1 ≤ w.x0 ∧ w.x0 ≤ WITHDRAWAL_RANGE.2) := by
      rintro ⟨-, h2⟩
      exact absurd h2 (not_le.mpr hc.1)
    simp only [dateStep]
    rw [if_neg hW, if_pos hc]
  · rw [if_neg (by simpa [inDepositBand] using hc)]
    simp only [dateStep]
    split_ifs <;> rfl

theorem dateStep_fst_Balance (acc : Record × List String) (w : Fragment) :
    (dateStep acc w).1.Balance =
      if inBalanceBand w then w.text else acc.1.Balance := by
  by_cases hc : BALANCE_RANGE.1 < w.x0 ∧ w.x0 ≤ BALANCE_RANGE.2
  · rw [if_pos (by simpa [inBalanceBand] using hc)]
    have hW : ¬(WITHDRAWAL_RANGE.1 ≤ w.x0 ∧ w.x0 ≤ WITHDRAWAL_RANGE.2) := by
      rintro ⟨-, h2⟩
      have hlt : WITHDRAWAL_RANGE.2 < BALANCE_RANGE.1 := by
        norm_num [WITHDRAWAL_RANGE, BALANCE_RANGE]
      exact absurd h2 (not_le.mpr (lt_trans hlt hc.1))
    have hD : ¬(DEPOSIT_RANGE.1 < w.x0 ∧ w.x0 ≤ DEPOSIT_RANGE.2) := by
      rintro ⟨-, h2⟩
      exact absurd h2 (not_le.mpr hc.1)
    simp only [dateStep]
    rw [if_neg hW, if_neg hD, if_pos hc]
  · rw [if_neg (by simpa [inBalanceBand] using hc)]
    simp only [dateStep]
    split_ifs <;> rfl

theorem dateFold_Withdrawal (r : Record) (parts : List String) (ws : List Fragment) :
    ((ws.foldl dateStep (r, parts)).1).Withdrawal =
      ((ws.filter inWithdrawalBand).getLast?).elim r.Withdrawal Fragment.text := by
  induction ws using List.reverseRecOn with
  | nil => rfl
  | append_singleton ws w ih =>
    rw [List.foldl_append, List.foldl_cons, List.foldl_nil, dateStep_fst_Withdrawal,
      List.filter_append]
    cases hw : inWithdrawalBand w
    · simp [hw, ih]
    · simp [hw, List.getLast?_concat]

theorem dateFold_Deposit (r : Record) (parts : List String) (ws : List Fragment) :
    ((ws.foldl dateStep (r, parts)).1).Deposit =
      ((ws.filter inDepositBand).getLast?).elim r.Deposit Fragment.text := by
  induction ws using List.reverseRecOn with
  | nil => rfl
  | append_singleton ws w ih =>
    rw [List.foldl_append, List.foldl_cons, List.foldl_nil, dateStep_fst_Deposit,
      List.filter_append]
    cases hw : inDepositBand w
    · simp [hw, ih]
    · simp [hw, List.getLast?_concat]

theorem dateFold_Balance (r : Record) (parts : List String) (ws : List Fragment) :
    ((ws.foldl dateStep (r, parts)).1).Balance =
      ((ws.filter inBalanceBand).getLast?).elim r.Balance Fragment.text := by
  induction ws using List.reverseRecOn with
  | nil => rfl
  | append_singleton ws w ih =>
    rw [List.foldl_append, List.foldl_cons, List.foldl_nil, dateStep_fst_Balance,
      List.filter_append]
    cases hw : inBalanceBand w
    · simp [hw, ih]
    · simp [hw, List.getLast?_concat]

/-- C9: across the classification loop of an opening Date line, each amount
field ends as the text of the last fragment lying in its band (or keeps its
prior value when no fragment does): later same-band fragments overwrite
earlier ones, with no first-value-wins guard. -/
theorem c9_opening_line_last_value_wins (r : Record) (parts : List String)
    (ws : List Fragment) :
    ((ws.foldl dateStep (r, parts)).1).Withdrawal =
        ((ws.filter inWithdrawalBand).getLast?).elim r.Withdrawal Fragment.text ∧
      ((ws.foldl dateStep (r, parts)).1).Deposit =
        ((ws.filter inDepositBand).getLast?).elim r.Deposit Fragment.text ∧
      ((ws.foldl dateStep (r, parts)).1).Balance =
        ((ws.filter inBalanceBand).getLast?).elim r.Balance Fragment.text :=
  ⟨dateFold_Withdrawal r parts ws, dateFold_Deposit r parts ws, dateFold_Balance r parts ws⟩

theorem countP_toList (p : Record → Bool) (current : Option Record) :
    current.toList.countP p = current.elim 0 (fun r => if p r then 1 else 0) := by
  cases current <;> simp [List.countP_cons]

theorem summaryRecord_Date (page : Nat) (ts : List String) :
    (summaryRecord page ts).Date = "" := by
  simp only [summaryRecord]
  repeat' split
  all_goals rfl

theorem dateStep_fst_Date (acc : Record × List String) (w : Fragment) :
    (dateStep acc w).1.Date = acc.1.Date := by
  simp only [dateStep]
  repeat' split
  all_goals rfl

theorem dateFold_Date (ws : List Fragment) :
    ∀ acc : Record × List String, ((ws.foldl dateStep acc).1).Date = acc.1.Date := by
  induction ws with
  | nil => intro acc; rfl
  | cons w ws ih => intro acc; rw [List.foldl_cons, ih, dateStep_fst_Date]

theorem dateLine_Date (page : Nat) (first : String) (rest : List Fragment) :
    (dateLine page first rest).Date = first := by
  have h := dateFold_Date rest (⟨first, "", "", "", "", "", "", page⟩, ([] : List String))
  simpa [dateLine] using h

theorem isDateText_ne_empty (s : String) (h : isDateText s = true) : s ≠ "" := by
  intro he
  subst he
  exact absurd h (by decide)

theorem isTransaction_dateLine (page : Nat) (first : String) (rest : List Fragment)
    (h : isDateText first = true) : isTransaction (dateLine page first rest) = true := by
  simp [isTransaction, dateLine_Date, bne_iff_ne, isDateText_ne_empty first h]

theorem isTransaction_summaryRecord (page : Nat) (ts : List String) :
    isTransaction (summaryRecord page ts) = false := by
  simp [isTransaction, summaryRecord_Date]

theorem isTransaction_contLine (r : Record) (sw : List Fragment) :
    isTransaction (contLine r sw) = isTransaction r := by
  simp [isTransaction, contLine_Date]

theorem processLines_countP (page : Nat) (ls : List Line) :
    ∀ current : Option Record,
      (processLines page current ls).countP isTransaction =
        current.elim 0 (fun r => if isTransaction r then 1 else 0) +
          ls.countP (fun l => dateLed l.words) := by
  induction ls with
  | nil =>
    intro current
    simp only [processLines, List.countP_nil, Nat.add_zero]
    exact countP_toList isTransaction current
  | cons l ls ih =>
    intro current
    simp only [processLines, List.countP_append, List.countP_cons]
    rcases hsw : sortByX0 l.words with - | ⟨w, rest⟩
    · have hdl : dateLed l.words = false := by simp [dateLed, hsw]
      simp only [handleLine, hsw]
      rw [ih current, hdl]
      simp
    · cases hd : isDateText w.text
      · by_cases ht : w.text = "Total"
        · have hdl : dateLed l.words = false := by simp [dateLed, hsw, hd]
          simp only [handleLine, hsw]
          rw [if_neg (by simp [hd]), if_pos ht, hdl, List.countP_append, ih none,
            countP_toList]
          simp [isTransaction_summaryRecord, List.countP_cons]
        · have hdl : dateLed l.words = false := by simp [dateLed, hsw, hd]
          simp only [handleLine, hsw]
          rw [if_neg (by simp [hd]), if_neg ht, hdl]
          cases current with
          | none => rw [ih none]; simp
          | some r =>
            rw [ih (some (contLine r (w :: rest)))]
            simp [isTransaction_contLine]
      · have hdl : dateLed l.words = true := by simp [dateLed, hsw, hd]
        simp only [handleLine, hsw]
        rw [if_pos (by simp [hd]), hdl, ih (some (dateLine page w.text rest)), countP_toList]
        simp [isTransaction_dateLine page w.text rest hd]
        omega

/-- C4: the number of Transaction records (records carrying a Date) a page
emits equals the number of Date-led lines on the page: each Date-led line
opens exactly one Transaction, every opened Transaction is eventually
emitted, and continuation and Total lines add none. -/
theorem c4_transaction_count (frags : List Fragment) (page : Nat) :
    (extractPage page frags).countP isTransaction =
      (groupLines (sortFrags frags)).countP (fun l => dateLed l.words) := by
  have h := processLines_countP page (groupLines (sortFrags frags)) none
  simpa [extractPage] using h

theorem groupStep_append (acc : List Line) (l : Line) (w : Fragment) :
    groupStep (acc ++ [l]) w =
      if |w.top - l.top| > 1.5 then acc ++ [l] ++ [⟨w.top, [w]⟩]
      else acc ++ [⟨l.top, l.words ++ [w]⟩] := by
  simp only [groupStep, List.getLast?_concat, List.dropLast_concat]

theorem foldl_groupStep_append (ws : List Fragment) :
    ∀ (acc : List Line) (l : Line),
      List.foldl groupStep (acc ++ [l]) ws = acc ++ List.foldl groupStep [l] ws := by
  induction ws with
  | nil => intro acc l; rfl
  | cons w ws ih =>
    intro acc l
    by_cases h : |w.top - l.top| > 1.5
    · have h0 : groupStep [l] w = [l] ++ [⟨w.top, [w]⟩] := by
        have hg := groupStep_append [] l w
        simpa [if_pos h] using hg
      rw [List.foldl_cons, List.foldl_cons, groupStep_append, if_pos h, h0,
        ih (acc ++ [l]) ⟨w.top, [w]⟩, ih [l] ⟨w.top, [w]⟩]
      simp
    · have h0 : groupStep [l] w = [⟨l.top, l.words ++ [w]⟩] := by
        have hg := groupStep_append [] l w
        simpa [if_neg h] using hg
      rw [List.foldl_cons, List.foldl_cons, groupStep_append, if_neg h, h0,
        ih acc ⟨l.top, l.words ++ [w]⟩]

theorem foldl_groupStep_spec (ws : List Fragment) :
    ∀ (t : ℚ) (ws0 : List Fragment),
      List.foldl groupStep [⟨t, ws0⟩] ws =
        ⟨t, ws0 ++ ws.takeWhile (fun v => |v.top - t| ≤ 1.5)⟩ ::
          groupLinesSpec (ws.dropWhile (fun v => |v.top - t| ≤ 1.5)) := by
  induction ws with
  | nil =>
    intro t ws0
    simp [groupLinesSpec]
  | cons w ws ih =>
    intro t ws0
    by_cases h : |w.top - t| ≤ 1.5
    · have hstep : groupStep [⟨t, ws0⟩] w = [⟨t, ws0 ++ [w]⟩] := by
        simp only [groupStep, List.getLast?_singleton]
        rw [if_neg (not_lt.mpr h)]
        simp
      have hb : (decide (|w.top - t| ≤ 1.5)) = true := decide_eq_true h
      rw [List.foldl_cons, hstep, ih t (ws0 ++ [w])]
      simp [hb]
    · have hstep : groupStep [⟨t, ws0⟩] w = [(⟨t, ws0⟩ : Line)] ++ [⟨w.top, [w]⟩] := by
        simp only [groupStep, List.getLast?_singleton]
        rw [if_pos (not_le.mp h)]
      have hb : (decide (|w.top - t| ≤ 1.5)) = false := decide_eq_false h
      rw [List.foldl_cons, hstep, foldl_groupStep_append ws [⟨t, ws0⟩] ⟨w.top, [w]⟩,
        ih w.top [w]]
      simp [hb, groupLinesSpec]

/-- C7: the source's line-grouping loop equals the reference single-link
grouping: a fragment joins the current line exactly when its vertical offset
is within 1.5 of the line's first fragment (the reference offset is never
updated), and otherwise starts a new line. -/
theorem c7_single_link_grouping (ws : List Fragment) :
    groupLines ws = groupLinesSpec ws := by
  cases ws with
  | nil => simp [groupLines, groupLinesSpec]
  | cons w ws =>
    have hstep : groupStep [] w = [⟨w.top, [w]⟩] := rfl
    rw [groupLines, List.foldl_cons, hstep, foldl_groupStep_spec ws w.top [w]]
    simp [groupLinesSpec]

theorem isPySpace_tildeChar (c : Char) : isPySpace (tildeChar c) = isSep c := by
  by_cases h : c = '~'
  · subst h; decide
  · simp [tildeChar, isSep, h]

theorem tildeChar_of_not_sep (c : Char) (h : isSep c = false) : tildeChar c = c := by
  have hne : ¬(c = '~') := by
    intro he
    subst he
    exact absurd h (by decide)
  simp [tildeChar, hne]

theorem dropWhile_eq_self_of_forall {p : Char → Bool} (l : List Char)
    (h : ∀ c ∈ l, p c = false) : l.dropWhile p = l := by
  cases l with
  | nil => rfl
  | cons c cs =>
    rw [List.dropWhile_cons_of_neg (by simp [h c (by simp)])]

theorem takeWhile_eq_self_of_forall {p : Char → Bool} : ∀ (l : List Char),
    (∀ c ∈ l, p c = true) → l.takeWhile p = l := by
  intro l
  induction l with
  | nil => intro h; rfl
  | cons c cs ih =>
    intro h
    rw [List.takeWhile_cons_of_pos (h c (by simp)), ih (fun d hd => h d (by simp [hd]))]

theorem dropWhile_eq_nil_of_forall {p : Char → Bool} : ∀ (l : List Char),
    (∀ c ∈ l, p c = true) → l.dropWhile p = [] := by
  intro l
  induction l with
  | nil => intro h; rfl
  | cons c cs ih =>
    intro h
    rw [List.dropWhile_cons_of_pos (h c (by simp)), ih (fun d hd => h d (by simp [hd]))]

theorem dropWhile_head_false {p : Char → Bool} : ∀ (l : List Char) (d : Char)
    (ds : List Char), l.dropWhile p = d :: ds → p d = false := by
  intro l
  induction l with
  | nil => intro d ds h; cases h
  | cons c cs ih =>
    intro d ds h
    by_cases hc : p c = true
    · rw [List.dropWhile_cons_of_pos hc] at h
      exact ih d ds h
    · rw [List.dropWhile_cons_of_neg hc] at h
      obtain ⟨rfl, -⟩ := List.cons.inj h
      simpa using hc

theorem toWordsWs_cons_ws (c : Char) (cs : List Char) (hc : isPySpace c = true) :
    toWordsWs (c :: cs) = toWordsWs cs := by
  rw [toWordsWs]
  simp [hc]

theorem toWordsWs_cons_not_ws (c : Char) (cs : List Char) (hc : isPySpace c = false) :
    toWordsWs (c :: cs) =
      (c :: cs.takeWhile (fun d => !isPySpace d)) ::
        toWordsWs (cs.dropWhile (fun d => !isPySpace d)) := by
  rw [toWordsWs]
  simp [hc]

theorem toWords_cons_sep (c : Char) (cs : List Char) (hc : isSep c = true) :
    toWords (c :: cs) = toWords cs := by
  rw [toWords]
  simp [hc]

theorem toWords_cons_not_sep (c : Char) (cs : List Char) (hc : isSep c = false) :
    toWords (c :: cs) =
      (c :: cs.takeWhile (fun d => !isSep d)) ::
        toWords (cs.dropWhile (fun d => !isSep d)) := by
  rw [toWords]
  simp [hc]

theorem toWordsWs_dropWhile : ∀ cs : List Char,
    toWordsWs (cs.dropWhile isPySpace) = toWordsWs cs := by
  intro cs
  induction cs with
  | nil => rfl
  | cons c cs ih =>
    by_cases hc : isPySpace c = true
    · rw [List.dropWhile_cons_of_pos hc, ih, toWordsWs_cons_ws c cs hc]
    · rw [List.dropWhile_cons_of_neg hc]

theorem toWordsWs_map_tilde : ∀ l : List Char, toWordsWs (l.map tildeChar) = toWords l
  | [] => by rw [List.map_nil]; rw [toWordsWs, toWords]
  | c :: cs => by
    rw [List.map_cons]
    by_cases h : isSep c = true
    · rw [toWordsWs_cons_ws _ _ (by rw [isPySpace_tildeChar, h]),
        toWords_cons_sep c cs h]
      exact toWordsWs_map_tilde cs
    · have h' : isSep c = false := by simpa using h
      have hpred : (fun d => !isPySpace (tildeChar d)) = (fun d => !isSep d) := by
        funext d
        rw [isPySpace_tildeChar]
      have htake : (cs.map tildeChar).takeWhile (fun d => !isPySpace d) =
          cs.takeWhile (fun d => !isSep d) := by
        rw [List.takeWhile_map]
        have : (cs.takeWhile ((fun d => !isPySpace d) ∘ tildeChar)).map tildeChar =
            (cs.takeWhile (fun d => !isSep d)).map tildeChar := by
          have hcong : cs.takeWhile ((fun d => !isPySpace d) ∘ tildeChar) =
              cs.takeWhile (fun d => !isSep d) := by
            have : ((fun d => !isPySpace d) ∘ tildeChar) = (fun d => !isSep d) := by
              funext d
              simp [Function.comp, isPySpace_tildeChar]
            rw [this]
          rw [hcong]
        rw [this]
        apply List.map_congr_left ?_ |>.trans (List.map_id _)
        intro a ha
        exact tildeChar_of_not_sep a (by simpa using List.mem_takeWhile_imp ha)
      have hdrop : (cs.map tildeChar).dropWhile (fun d => !isPySpace d) =
          (cs.dropWhile (fun d => !isSep d)).map tildeChar := by
        rw [List.dropWhile_map]
        have : ((fun d => !isPySpace d) ∘ tildeChar) = (fun d => !isSep d) := by
          funext d
          simp [Function.comp, isPySpace_tildeChar]
        rw [this]
      rw [toWordsWs_cons_not_ws _ _ (by rw [isPySpace_tildeChar, h']),
        tildeChar_of_not_sep c h', htake, hdrop, toWords_cons_not_sep c cs h',
        toWordsWs_map_tilde (cs.dropWhile (fun d => !isSep d))]
termination_by l => l.length
decreasing_by
  · simp only [List.length_cons]
    exact Nat.lt_succ_of_le (Nat.le_refl _)
  · simp only [List.length_cons]
    exact Nat.lt_succ_of_le (List.dropWhile_sublist _).length_le

theorem collapseAux_true (cs : List Char) :
    collapseAux true cs = collapseAux false (cs.dropWhile isPySpace) := by
  induction cs with
  | nil => rfl
  | cons c cs ih =>
    by_cases hc : isPySpace c = true
    · rw [List.dropWhile_cons_of_pos hc]
      simp only [collapseAux, hc, if_true]
      exact ih
    · have hc' : isPySpace c = false := by simpa using hc
      rw [List.dropWhile_cons_of_neg hc]
      simp only [collapseAux, hc']
      simp

theorem collapseWs_cons_ws (c : Char) (cs : List Char) (hc : isPySpace c = true) :
    collapseWs (c :: cs) = ' ' :: collapseWs (cs.dropWhile isPySpace) := by
  simp only [collapseWs, collapseAux, hc, if_true]
  rw [collapseAux_true]
  simp

theorem collapseWs_cons_not_ws (c : Char) (cs : List Char) (hc : isPySpace c = false) :
    collapseWs (c :: cs) = c :: collapseWs cs := by
  simp only [collapseWs, collapseAux, hc]
  simp

theorem collapseWs_nonws_append (l₁ l₂ : List Char) (h : ∀ c ∈ l₁, isPySpace c = false) :
    collapseWs (l₁ ++ l₂) = l₁ ++ collapseWs l₂ := by
  induction l₁ with
  | nil => simp
  | cons c l₁ ih =>
    rw [List.cons_append, collapseWs_cons_not_ws c _ (h c (by simp)),
      ih (fun d hd => h d (by simp [hd])), List.cons_append]

theorem pyStrip_cons_space (x : List Char) : pyStrip (' ' :: x) = pyStrip x := by
  rw [pyStrip, pyStrip, pyLStrip, pyLStrip, List.dropWhile_cons_of_pos (by decide)]

theorem pyRStrip_cons_not_ws (c : Char) (x : List Char) (hc : isPySpace c = false) :
    pyRStrip (c :: x) = c :: pyRStrip x := by
  rw [pyRStrip, List.reverse_cons, List.dropWhile_append]
  by_cases h : (x.reverse.dropWhile isPySpace).isEmpty
  · rw [if_pos h]
    have hx : x.reverse.dropWhile isPySpace = [] := by simpa [List.isEmpty_iff] using h
    rw [List.dropWhile_cons_of_neg (by simp [hc]), pyRStrip, hx]
    simp
  · rw [if_neg h, List.reverse_append, pyRStrip]
    simp

theorem pyStrip_cons_not_ws (c : Char) (x : List Char) (hc : isPySpace c = false) :
    pyStrip (c :: x) = c :: pyRStrip x := by
  rw [pyStrip, pyLStrip, List.dropWhile_cons_of_neg (by simp [hc])]
  exact pyRStrip_cons_not_ws c x hc

theorem pyRStrip_append_ne_nil (l₁ l₂ : List Char) (h : pyRStrip l₂ ≠ []) :
    pyRStrip (l₁ ++ l₂) = l₁ ++ pyRStrip l₂ := by
  rw [pyRStrip, List.reverse_append, List.dropWhile_append]
  have h2 : ¬(l₂.reverse.dropWhile isPySpace).isEmpty := by
    intro hE
    apply h
    rw [pyRStrip]
    rw [List.isEmpty_iff] at hE
    rw [hE]
    rfl
  rw [if_neg h2, List.reverse_append, List.reverse_reverse, pyRStrip]

theorem pyRStrip_eq_self_of_forall (l : List Char) (h : ∀ c ∈ l, isPySpace c = false) :
    pyRStrip l = l := by
  rw [pyRStrip, dropWhile_eq_self_of_forall _ (fun c hc => h c (by simpa using hc)),
    List.reverse_reverse]

theorem pyRStrip_append_space (tw : List Char) (h : ∀ c ∈ tw, isPySpace c = false) :
    pyRStrip (tw ++ [' ']) = tw := by
  rw [pyRStrip, List.reverse_append]
  rw [show ([' '] : List Char).reverse = [' '] from rfl, List.singleton_append,
    List.dropWhile_cons_of_pos (by decide),
    dropWhile_eq_self_of_forall _ (fun c hc => h c (by simpa using hc)),
    List.reverse_reverse]

theorem intercalate_space_nil : List.intercalate [' '] ([] : List (List Char)) = [] := by
  simp [List.intercalate]

theorem intercalate_space_single (a : List Char) : List.intercalate [' '] [a] = a := by
  simp [List.intercalate]

theorem intercalate_space_cons_cons (a b : List Char) (T : List (List Char)) :
    List.intercalate [' '] (a :: b :: T) = a ++ ' ' :: List.intercalate [' '] (b :: T) := by
  simp [List.intercalate]

theorem intercalate_space_cons_ne_nil (a : Char) (w : List Char) (T : List (List Char)) :
    List.intercalate [' '] ((a :: w) :: T) ≠ [] := by
  cases T with
  | nil => rw [intercalate_space_single]; simp
  | cons b T => rw [intercalate_space_cons_cons]; simp

theorem strip_collapse : ∀ m : List Char,
    pyStrip (collapseWs m) = List.intercalate [' '] (toWordsWs m)
  | [] => by
    rw [show collapseWs [] = [] from rfl, toWordsWs, intercalate_space_nil]
    rfl
  | c :: cs => by
    by_cases hc : isPySpace c = true
    · rw [collapseWs_cons_ws c cs hc, pyStrip_cons_space,
        strip_collapse (cs.dropWhile isPySpace), toWordsWs_dropWhile,
        toWordsWs_cons_ws c cs hc]
    · have hc' : isPySpace c = false := by simpa using hc
      have htw : ∀ d ∈ cs.takeWhile (fun d => !isPySpace d), isPySpace d = false :=
        fun d hd => by simpa using List.mem_takeWhile_imp hd
      rw [collapseWs_cons_not_ws c cs hc']
      rw [show collapseWs cs
            = collapseWs (cs.takeWhile (fun d => !isPySpace d) ++
                cs.dropWhile (fun d => !isPySpace d)) by
          rw [List.takeWhile_append_dropWhile]]
      rw [collapseWs_nonws_append _ _ htw, pyStrip_cons_not_ws c _ hc',
        toWordsWs_cons_not_ws c cs hc']
      rcases hdw : cs.dropWhile (fun d => !isPySpace d) with - | ⟨d, ds⟩
      · rw [show collapseWs [] = [] from rfl, List.append_nil,
          pyRStrip_eq_self_of_forall _ htw, toWordsWs, intercalate_space_single]
      · have hd : isPySpace d = true := by
          have := dropWhile_head_false cs d ds hdw
          simpa using this
        rw [collapseWs_cons_ws d ds hd, toWordsWs_cons_ws d ds hd, ← toWordsWs_dropWhile ds]
        rcases hrest : ds.dropWhile isPySpace with - | ⟨r, rs⟩
        · rw [show collapseWs [] = [] from rfl, toWordsWs]
          rw [show (cs.takeWhile (fun d => !isPySpace d)) ++ [' ']
                = (cs.takeWhile (fun d => !isPySpace d)) ++ [' '] from rfl]
          rw [pyRStrip_append_space _ htw, intercalate_space_single]
        · have hr : isPySpace r = false := dropWhile_head_false ds r rs hrest
          have hrec := strip_collapse (r :: rs)
          have hhead : collapseWs (r :: rs) = r :: collapseWs rs :=
            collapseWs_cons_not_ws r rs hr
          have hstripR : pyRStrip (collapseWs (r :: rs)) =
              List.intercalate [' '] (toWordsWs (r :: rs)) := by
            rw [← hrec, hhead, pyStrip_cons_not_ws r _ hr, pyRStrip_cons_not_ws r _ hr]
          have hne : pyRStrip (collapseWs (r :: rs)) ≠ [] := by
            rw [hstripR, toWordsWs_cons_not_ws r rs hr]
            exact intercalate_space_cons_ne_nil r _ _
          rw [List.append_cons, pyRStrip_append_ne_nil _ _ hne, hstripR,
            toWordsWs_cons_not_ws r rs hr, intercalate_space_cons_cons]
          simp
termination_by m => m.length
decreasing_by
  · simp only [List.length_cons]
    exact Nat.lt_succ_of_le (List.dropWhile_sublist _).length_le
  · have h1 : (r :: rs).length ≤ ds.length := by
      rw [← hrest]
      exact (List.dropWhile_sublist _).length_le
    have h2 : (d :: ds).length ≤ cs.length := by
      rw [← hdw]
      exact (List.dropWhile_sublist _).length_le
    simp only [List.length_cons] at h1 h2 ⊢
    omega

theorem toWords_words_nonsep : ∀ l : List Char, ∀ w ∈ toWords l,
    w ≠ [] ∧ ∀ c ∈ w, isSep c = false
  | [] => by
    rw [toWords]
    intro w hw
    cases hw
  | c :: cs => by
    by_cases h : isSep c = true
    · rw [toWords_cons_sep c cs h]
      exact toWords_words_nonsep cs
    · have h' : isSep c = false := by simpa using h
      rw [toWords_cons_not_sep c cs h']
      intro w hw
      rcases List.mem_cons.mp hw with rfl | hw'
      · refine ⟨by simp, ?_⟩
        intro x hx
        rcases List.mem_cons.mp hx with rfl | hx'
        · exact h'
        · simpa using List.mem_takeWhile_imp hx'
      · exact toWords_words_nonsep (cs.dropWhile (fun d => !isSep d)) w hw'
termination_by l => l.length
decreasing_by
  · simp only [List.length_cons]
    exact Nat.lt_succ_of_le (Nat.le_refl _)
  · simp only [List.length_cons]
    exact Nat.lt_succ_of_le (List.dropWhile_sublist _).length_le

theorem toWords_of_word (w : List Char) (hne : w ≠ []) (h : ∀ c ∈ w, isSep c = false) :
    toWords w = [w] := by
  rcases w with - | ⟨c, ws⟩
  · exact absurd rfl hne
  · rw [toWords_cons_not_sep c ws (h c (by simp)),
      takeWhile_eq_self_of_forall ws (fun d hd => by simp [h d (by simp [hd])]),
      dropWhile_eq_nil_of_forall ws (fun d hd => by simp [h d (by simp [hd])]),
      toWords]

theorem toWords_word_append (c : Char) (ws : List Char)
    (h : ∀ x ∈ c :: ws, isSep x = false) (r : List Char) :
    toWords ((c :: ws) ++ ' ' :: r) = (c :: ws) :: toWords r := by
  rw [List.cons_append, toWords_cons_not_sep c _ (h c (by simp))]
  have hall : ∀ d ∈ ws, (fun d => !isSep d) d = true :=
    fun d hd => by simp [h d (by simp [hd])]
  rw [List.takeWhile_append_of_pos hall, List.dropWhile_append_of_pos hall,
    List.takeWhile_cons_of_neg (by decide), List.dropWhile_cons_of_neg (by decide),
    List.append_nil, toWords_cons_sep ' ' r (by decide)]

theorem toWords_intercalate : ∀ W : List (List Char),
    (∀ w ∈ W, w ≠ [] ∧ ∀ c ∈ w, isSep c = false) →
    toWords (List.intercalate [' '] W) = W
  | [], _ => by rw [intercalate_space_nil, toWords]
  | [w], hW => by
    rw [intercalate_space_single]
    exact toWords_of_word w (hW w (by simp)).1 (hW w (by simp)).2
  | w :: w' :: T, hW => by
    obtain ⟨hne, hsep⟩ := hW w (by simp)
    rcases w with - | ⟨c, ws⟩
    · exact absurd rfl hne
    · rw [intercalate_space_cons_cons, toWords_word_append c ws hsep _,
        toWords_intercalate (w' :: T) (fun u hu => hW u (by simp [hu]))]

theorem normalise_eq_spec (s : String) : normalise_whitespace s = specNormalise s := by
  rw [normalise_whitespace, specNormalise, strip_collapse (s.data.map tildeChar),
    toWordsWs_map_tilde]

/-- C8: whitespace normalisation is idempotent — normalising a normalised
string returns it unchanged — and it acts as the spec words it: every maximal
run of tildes and (or) whitespace characters becomes a single space and the
leading and trailing whitespace is removed, i.e. the separator-free words of
the string joined by single spaces. -/
theorem c8_normalisation_idempotent (s : String) :
    normalise_whitespace (normalise_whitespace s) = normalise_whitespace s ∧
      normalise_whitespace s = specNormalise s := by
  refine ⟨?_, normalise_eq_spec s⟩
  rw [normalise_eq_spec s, normalise_eq_spec (specNormalise s), specNormalise,
    specNormalise,
    show (String.mk (List.intercalate [' '] (toWords s.data))).data
      = List.intercalate [' '] (toWords s.data) from rfl,
    toWords_intercalate (toWords s.data) (toWords_words_nonsep s.data)]

end ConvertStatement
